import Mathlib

/-
Verification of the mpc-recovery node protocol core against its source.

The embedding below is a shallow model of src/node/src/protocol/triple.rs,
src/node/src/protocol/cryptography.rs, src/node/src/protocol/state.rs and
src/node/src/web/error.rs.  Conventions:

* Rust HashMap values are modelled as association lists (List (Nat x A))
  whose keys are unique in every reachable state; insert overwrites the
  first matching key, remove drops it.
* secp256k1 curve points are modelled by their canonical byte encoding
  (a list of naturals); scalars and opaque payloads are naturals.
* The external cait-sith protocol handles (TripleProtocol, KeygenProtocol,
  ReshareProtocol) are modelled as scripts: the list of actions that
  successive calls of poke on the handle return.  An empty script behaves
  like a protocol that keeps returning Wait.
* The external HighwayHash 64-bit hash and the external cait-sith
  generate_triple constructor are abstract parameters (section variables):
  every theorem holds for an arbitrary choice, witnesses instantiate them.
* Rust panics (unwrap on None / Err) are modelled by Option.none or by a
  dedicated panicked outcome; fallible calls return Except.
-/

set_option autoImplicit false

namespace MpcRecovery

/-- Canonical byte serialisation of an opaque value (curve point, message
payload): a list of naturals standing for the bytes. -/
abbrev Bytes := List Nat

/-- Participant is an opaque small integer identifier (cait-sith newtype
over u32). -/
abbrev ParticipantId := Nat

/-- TripleId from triple.rs: unique number identifying a triple generation
protocol (u64). -/
abbrev TripleId := Nat

/-- TriplePub from cait-sith: the public part of a Beaver triple, three
curve points, each modelled by its canonical byte encoding. -/
structure TriplePub where
  big_a : Bytes
  big_b : Bytes
  big_c : Bytes
  deriving DecidableEq, Repr

/-- The secret share part of a triple, opaque to the manager. -/
abbrev TripleShare := Nat

/-- Triple from triple.rs: a completed triple. -/
structure Triple where
  id : TripleId
  share : TripleShare
  public : TriplePub
  deriving DecidableEq, Repr

/-- TripleMessage from message.rs as constructed in TripleManager::poke:
fields id, epoch, from, data. -/
structure TripleMessage where
  id : TripleId
  epoch : Nat
  sender : ParticipantId
  data : Bytes
  deriving DecidableEq, Repr

/-- Action from cait-sith protocol.rs, parametrised by the type returned on
completion.  The perr constructor stands for poke returning Err(e). -/
inductive Action (R : Type) where
  | wait
  | sendMany (data : Bytes)
  | sendPrivate (dest : ParticipantId) (data : Bytes)
  | ret (output : R)
  | perr (e : Nat)
  deriving DecidableEq, Repr

/-- A triple generation protocol handle, modelled as the script of actions
its successive pokes return. -/
abbrev TScript := List (Action (TripleShare × TriplePub))

section AssocList

variable {A : Type}

/-- HashMap.contains_key on the association-list model. -/
def containsKey (l : List (Nat × A)) (k : Nat) : Bool :=
  l.any (fun kv => kv.1 == k)

/-- HashMap.get / map lookup: the value at the first matching key. -/
def lookupA : List (Nat × A) → Nat → Option A
  | [], _ => none
  | (k', v) :: rest, k => if k' = k then some v else lookupA rest k

/-- HashMap.remove: returns the removed value (if any) and the map without
the first entry holding the key. -/
def removeA : List (Nat × A) → Nat → Option A × List (Nat × A)
  | [], _ => (none, [])
  | (k', v) :: rest, k =>
      if k' = k then (some v, rest)
      else
        let r := removeA rest k
        (r.1, (k', v) :: r.2)

/-- HashMap.insert: overwrite the first entry with the key, or append. -/
def insertA : List (Nat × A) → Nat → A → List (Nat × A)
  | [], k, v => [(k, v)]
  | (k', v') :: rest, k, v =>
      if k' = k then (k, v) :: rest else (k', v') :: insertA rest k v

end AssocList

/-- TripleManager from triple.rs. -/
structure TripleManager where
  triples : List (TripleId × Triple)
  generators : List (TripleId × TScript)
  mine : List TripleId
  participants : List ParticipantId
  me : ParticipantId
  threshold : Nat
  epoch : Nat
  triple_stockpile : Option Nat
  deriving DecidableEq, Repr

/-- TripleManager::take_two (triple.rs lines 119-130).  Returns none when
the Rust code would panic: the two unwraps after remove.  On success the
pair is removed from triples; on Err nothing changes. -/
def take_two (m : TripleManager) (id0 id1 : TripleId) :
    Option (Except TripleId (Triple × Triple) × TripleManager) :=
  if ¬ containsKey m.triples id0 then some (.error id0, m)
  else if ¬ containsKey m.triples id1 then some (.error id1, m)
  else
    let r0 := removeA m.triples id0
    let r1 := removeA r0.2 id1
    match r0.1, r1.1 with
    | some t0, some t1 => some (.ok (t0, t1), { m with triples := r1.2 })
    | _, _ => none

/-- TripleManager::take_two_mine (triple.rs lines 135-148).  Pops the two
oldest owned ids and calls take_two; a take_two error is logged and turned
into none with the popped ids lost.  The outer Option models the panic of
take_two propagating. -/
def take_two_mine (m : TripleManager) :
    Option (Option (Triple × Triple) × TripleManager) :=
  if m.mine.length < 2 then some (none, m)
  else
    match m.mine with
    | id0 :: id1 :: rest =>
        match take_two { m with mine := rest } id0 id1 with
        | none => none
        | some (.ok pair, m') => some (some pair, m')
        | some (.error _, m') => some (none, m')
    | _ => some (none, m)

section External

-- The external HighwayHash 64-bit hash over the canonical bytes of a
-- curve point (triple.rs line 259), abstract here: every statement holds
-- for an arbitrary stable hash.
variable (hash64 : Bytes → Nat)

-- The external cait-sith generate_triple constructor (participants, me,
-- threshold), abstract here; it yields a fresh protocol script or an
-- InitializationError.
variable (newProtocol : List ParticipantId → ParticipantId → Nat → Except Nat TScript)

/-- TripleManager::generate (triple.rs lines 86-98).  The random id drawn
by rand::random is passed explicitly. -/
def generate (m : TripleManager) (id : TripleId) : Except Nat TripleManager :=
  match newProtocol m.participants m.me m.threshold with
  | .error e => .error e
  | .ok protocol => .ok { m with generators := insertA m.generators id protocol }

/-- DEFAULT_MAX_MESSAGES from triple.rs line 15. -/
def DEFAULT_MAX_MESSAGES : Nat := 22500

/-- DEFAULT_MAX_PILE from triple.rs line 18. -/
def DEFAULT_MAX_PILE : Nat := 100

/-- calc_optimal_pile (triple.rs lines 289-291).  Note: Rust panics on a
division by zero when nodes = 0; the Nat model returns 0 there, and every
theorem about it assumes 0 < nodes. -/
def calc_optimal_pile (max_messages : Nat) (nodes : Nat) : Nat :=
  max_messages / (nodes * nodes)

/-- The pile size computed by generate_pile_by_bandwidth
(triple.rs lines 101-106). -/
def pileOf (m : TripleManager) (nodes : Nat) : Nat :=
  match m.triple_stockpile with
  | some triple_stockpile => triple_stockpile
  | none => min (calc_optimal_pile DEFAULT_MAX_MESSAGES nodes) DEFAULT_MAX_PILE

/-- The generation loop of generate_pile_by_bandwidth: pile iterations of
generate, each drawing the next random id from the stream ids, stopping at
the first InitializationError. -/
def generatePileGo (pile : Nat) (ids : Nat → TripleId) (i : Nat)
    (m : TripleManager) : Except Nat TripleManager :=
  match pile with
  | 0 => .ok m
  | k + 1 =>
      match generate newProtocol m (ids i) with
      | .error e => .error e
      | .ok m' => generatePileGo k ids (i + 1) m'

/-- TripleManager::generate_pile_by_bandwidth (triple.rs lines 100-113). -/
def generate_pile_by_bandwidth (m : TripleManager) (nodes : Nat)
    (ids : Nat → TripleId) : Except Nat TripleManager :=
  generatePileGo newProtocol (pileOf m nodes) ids 0 m

/-- TripleManager::get_or_generate (triple.rs lines 155-178).  Returns the
protocol now registered for the id (none when the triple is already
complete), together with the updated manager. -/
def get_or_generate (m : TripleManager) (id : TripleId) :
    Except Nat (Option TScript × TripleManager) :=
  if containsKey m.triples id then .ok (none, m)
  else
    match lookupA m.generators id with
    | some g => .ok (some g, m)
    | none =>
        match newProtocol m.participants m.me m.threshold with
        | .error e => .error e
        | .ok protocol =>
            .ok (some protocol, { m with generators := insertA m.generators id protocol })

/-- Owner selection in TripleManager::poke (triple.rs lines 252-267):
participants indexed at the hash of the canonical bytes of big_c modulo the
number of participants.  Rust indexing panics on an empty participants
list; the model returns none there. -/
def tripleOwner (ps : List ParticipantId) (c : Bytes) : Option ParticipantId :=
  ps.get? (hash64 c % ps.length)

/-- The triple_is_mine computation of poke: the selected owner equals me. -/
def tripleIsMine (ps : List ParticipantId) (me : ParticipantId) (c : Bytes) : Bool :=
  match tripleOwner hash64 ps c with
  | some owner => owner == me
  | none => false

/-- Outcome of driving one generator inside poke until it leaves the inner
loop: retained with a remaining script, completed, or failed. -/
inductive GenOutcome where
  | waits (rest : TScript)
  | completes (share : TripleShare) (pub : TriplePub)
  | fails (e : Nat)
  deriving DecidableEq, Repr

/-- The inner loop of TripleManager::poke for one generator
(triple.rs lines 188-280): sends accumulate until the protocol returns
Wait, Return or an error.  SendMany pushes one message per participant,
with no exclusion of me. -/
def runGenerator (ps : List ParticipantId) (me : ParticipantId) (epoch : Nat)
    (id : TripleId) : TScript → List (ParticipantId × TripleMessage) × GenOutcome
  | [] => ([], .waits [])
  | .wait :: rest => ([], .waits rest)
  | .sendMany d :: rest =>
      let r := runGenerator ps me epoch id rest
      (ps.map (fun p => (p, ⟨id, epoch, me, d⟩)) ++ r.1, r.2)
  | .sendPrivate p d :: rest =>
      let r := runGenerator ps me epoch id rest
      ((p, ⟨id, epoch, me, d⟩) :: r.1, r.2)
  | .ret output :: _ => ([], .completes output.1 output.2)
  | .perr e :: _ => ([], .fails e)

/-- Accumulator threaded through the generators.retain closure of poke:
retained generators, the triples and mine fields being mutated in place,
the outgoing messages, and the last protocol error seen. -/
structure PokeAcc where
  kept : List (TripleId × TScript)
  triples : List (TripleId × Triple)
  mine : List TripleId
  msgs : List (ParticipantId × TripleMessage)
  err : Option Nat
  deriving DecidableEq, Repr

/-- One retain pass of poke over the generators (triple.rs lines 187-281).
A completed generator inserts its triple and appends the id to mine when
the owner is me; a failed generator records the error and is dropped; a
waiting generator is retained. -/
def pokeGo (ps : List ParticipantId) (me : ParticipantId) (epoch : Nat) :
    List (TripleId × TScript) → PokeAcc → PokeAcc
  | [], acc => acc
  | (id, g) :: gs, acc =>
      match runGenerator ps me epoch id g with
      | (ms, .waits rest) =>
          pokeGo ps me epoch gs
            { acc with msgs := acc.msgs ++ ms, kept := acc.kept ++ [(id, rest)] }
      | (ms, .completes share pub) =>
          pokeGo ps me epoch gs
            { acc with
              msgs := acc.msgs ++ ms,
              triples := insertA acc.triples id ⟨id, share, pub⟩,
              mine :=
                if tripleIsMine hash64 ps me pub.big_c then acc.mine ++ [id]
                else acc.mine }
      | (ms, .fails e) =>
          pokeGo ps me epoch gs { acc with msgs := acc.msgs ++ ms, err := some e }

/-- The generators retained by one poke pass: exactly those whose run left
them waiting, holding their remaining script. -/
def keptOf (ps : List ParticipantId) (me : ParticipantId) (epoch : Nat)
    (gs : List (TripleId × TScript)) : List (TripleId × TScript) :=
  gs.filterMap (fun pg =>
    match (runGenerator ps me epoch pg.1 pg.2).2 with
    | .waits rest => some (pg.1, rest)
    | _ => none)

/-- The ids appended to mine by one poke pass: the completing generators
whose selected owner is me, in generator order. -/
def minedOf (ps : List ParticipantId) (me : ParticipantId) (epoch : Nat)
    (gs : List (TripleId × TScript)) : List TripleId :=
  gs.filterMap (fun pg =>
    match runGenerator ps me epoch pg.1 pg.2 with
    | (_, .completes _ pub) =>
        if tripleIsMine hash64 ps me pub.big_c then some pg.1 else none
    | _ => none)

/-- TripleManager::poke (triple.rs lines 184-283).  The messages vector is
returned only when no generator failed; the state mutations persist either
way. -/
def poke (m : TripleManager) :
    Except Nat (List (ParticipantId × TripleMessage)) × TripleManager :=
  let a := pokeGo hash64 m.participants m.me m.epoch m.generators
    ⟨[], m.triples, m.mine, [], none⟩
  (match a.err with
   | some e => .error e
   | none => .ok a.msgs,
   { m with generators := a.kept, triples := a.triples, mine := a.mine })

end External

/-- CryptographicError from cryptography.rs lines 16-26; error payloads are
opaque naturals. -/
inductive CryptographicError where
  | sendError (e : Nat)
  | unknownParticipant (p : ParticipantId)
  | caitSithInitializationError (e : Nat)
  | caitSithProtocolError (e : Nat)
  deriving DecidableEq, Repr

/-- Participants from contract primitives: an ordered map from participant
id to its info (url, cipher key and so on, opaque here). -/
abbrev Participants := List (ParticipantId × Nat)

/-- GeneratingState from state.rs, with the keygen protocol handle modelled
as its action script returning (private_share, public_key); the message
queue field is orthogonal to progress and omitted. -/
structure GeneratingState where
  participants : Participants
  threshold : Nat
  protocol : List (Action (Nat × Nat))
  deriving DecidableEq, Repr

/-- WaitingForConsensusState with the fields set by the progress
transitions in cryptography.rs lines 97-103 and 168-174. -/
structure WaitingForConsensusState where
  epoch : Nat
  participants : Participants
  threshold : Nat
  private_share : Nat
  public_key : Nat
  deriving DecidableEq, Repr

/-- ResharingState from state.rs, with the reshare protocol handle
modelled as its action script returning the new private share. -/
structure ResharingState where
  old_epoch : Nat
  old_participants : Participants
  new_participants : Participants
  threshold : Nat
  public_key : Nat
  protocol : List (Action Nat)
  deriving DecidableEq, Repr

/-- The NodeState variants reachable from the two progress loops under
study (state.rs lines 120-131 restricted to the cases the claims touch). -/
inductive NodeStateM where
  | generating (s : GeneratingState)
  | waitingForConsensus (s : WaitingForConsensusState)
  | resharing (s : ResharingState)
  deriving DecidableEq, Repr

/-- An outbound HTTP message recorded by the progress model: recipient,
whether the encrypted channel (message_encrypted) was used, the epoch tag
carried by Resharing messages, the sender and the payload bytes. -/
structure SentMsg where
  dest : ParticipantId
  encrypted : Bool
  epochTag : Option Nat
  sender : ParticipantId
  data : Bytes
  deriving DecidableEq, Repr

/-- Result of one progress call: the new state plus everything sent so
far, a surfaced CryptographicError, or a panic (unwrap on a protocol
error).  Messages already posted before the failure stay listed because
the HTTP sends happened. -/
inductive ProgressOut where
  | ok (st : NodeStateM) (sent : List SentMsg)
  | err (e : CryptographicError) (sent : List SentMsg)
  | panicked (sent : List SentMsg)
  deriving DecidableEq, Repr

/-- CryptographicProtocol::progress for GeneratingState (cryptography.rs
lines 36-108).  SendMany skips me; SendPrivate on an unknown participant
surfaces UnknownParticipant; a protocol error is surfaced by the question
mark on poke; Return yields WaitingForConsensus with epoch 0. -/
def progressGen (me : ParticipantId) (s : GeneratingState) :
    List (Action (Nat × Nat)) → List SentMsg → ProgressOut
  | [], sent => .ok (.generating { s with protocol := [] }) sent
  | .wait :: rest, sent => .ok (.generating { s with protocol := rest }) sent
  | .sendMany d :: rest, sent =>
      progressGen me s rest
        (sent ++ (s.participants.filter (fun pi => pi.1 != me)).map
          (fun pi => ⟨pi.1, false, none, me, d⟩))
  | .sendPrivate p d :: rest, sent =>
      match lookupA s.participants p with
      | some _ => progressGen me s rest (sent ++ [⟨p, true, none, me, d⟩])
      | none => .err (.unknownParticipant p) sent
  | .ret r :: _, sent =>
      .ok (.waitingForConsensus ⟨0, s.participants, s.threshold, r.1, r.2⟩) sent
  | .perr e :: _, sent => .err (.caitSithProtocolError e) sent

/-- CryptographicProtocol::progress for ResharingState (cryptography.rs
lines 110-179).  Same shape over new_participants with the old_epoch tag,
except that the code calls protocol.poke().unwrap(), so a protocol error
panics instead of surfacing; Return yields WaitingForConsensus with epoch
old_epoch + 1 and the unchanged public key. -/
def progressResh (me : ParticipantId) (s : ResharingState) :
    List (Action Nat) → List SentMsg → ProgressOut
  | [], sent => .ok (.resharing { s with protocol := [] }) sent
  | .wait :: rest, sent => .ok (.resharing { s with protocol := rest }) sent
  | .sendMany d :: rest, sent =>
      progressResh me s rest
        (sent ++ (s.new_participants.filter (fun pi => pi.1 != me)).map
          (fun pi => ⟨pi.1, false, some s.old_epoch, me, d⟩))
  | .sendPrivate p d :: rest, sent =>
      match lookupA s.new_participants p with
      | some _ => progressResh me s rest (sent ++ [⟨p, true, some s.old_epoch, me, d⟩])
      | none => .err (.unknownParticipant p) sent
  | .ret private_share :: _, sent =>
      .ok (.waitingForConsensus
        ⟨s.old_epoch + 1, s.new_participants, s.threshold, private_share, s.public_key⟩) sent
  | .perr _ :: _, sent => .panicked sent

/-- The messages sent by a progress call, in every outcome. -/
def ProgressOut.sentMsgs : ProgressOut → List SentMsg
  | .ok _ sent => sent
  | .err _ sent => sent
  | .panicked sent => sent

/-- A fixed triple public part used by the concrete states below. -/
def tpubW : TriplePub := ⟨[1], [2], [3]⟩

/-- A completed sample triple with the given id. -/
def sampleTriple (i : TripleId) : Triple := ⟨i, 0, tpubW⟩

/-- A concrete stand-in for the abstract 64-bit hash, used only to
evaluate the model on closed inputs. -/
def hashZero : Bytes → Nat := fun _ => 0

/-- A concrete stand-in for the external protocol constructor whose
protocols complete immediately with tpubW. -/
def npRet : List ParticipantId → ParticipantId → Nat → Except Nat TScript :=
  fun _ _ _ => .ok [Action.ret (0, tpubW)]

/-- A concrete stand-in for the external protocol constructor whose
protocols only wait. -/
def npWait : List ParticipantId → ParticipantId → Nat → Except Nat TScript :=
  fun _ _ _ => .ok [Action.wait]

/-- A two-participant manager holding the completed triples 1, 2 and 3. -/
def mgr0 : TripleManager :=
  ⟨[(1, sampleTriple 1), (2, sampleTriple 2), (3, sampleTriple 3)],
   [], [], [0, 1], 0, 2, 0, none⟩

/-- A manager with one in-flight generator that broadcasts once: it
exercises the SendMany branch of poke. -/
def mgrBroadcast : TripleManager :=
  ⟨[], [(7, [Action.sendMany [9], Action.wait])], [], [0, 1], 0, 2, 0, none⟩

/-- A manager with one in-flight generator that completes at once. -/
def mgrComplete : TripleManager :=
  ⟨[], [(5, [Action.ret (4, tpubW)])], [], [0, 1], 0, 2, 0, none⟩

/-- The manager state after take_two mgr0 1 2 succeeded. -/
def c4m1 : TripleManager :=
  match take_two mgr0 1 2 with
  | some (_, m') => m'
  | none => mgr0

/-- The state after a message for the already spent id 1 made
get_or_generate join a fresh generation protocol for it. -/
def c4m2 : TripleManager :=
  match get_or_generate npRet c4m1 1 with
  | .ok r => r.2
  | .error _ => c4m1

/-- The state after poke completed the re-created generator for id 1. -/
def c4m3 : TripleManager := (poke hashZero c4m2).2

/-- A manager with one in-flight generator whose protocol errors at once. -/
def mgrFail : TripleManager :=
  ⟨[], [(9, [Action.perr 3])], [], [0, 1], 0, 2, 0, none⟩

/-- A triple id is absent from a manager entirely: neither a completed
triple nor an in-flight generator carries it.  Once established for an id,
only a new generator for that very id can bring it back. -/
abbrev notTracked (m : TripleManager) (a : TripleId) : Prop :=
  containsKey m.triples a = false ∧ containsKey m.generators a = false

/-- A resharing state whose protocol reports an error on the next poke. -/
def reshStuck : ResharingState :=
  ⟨3, [(0, 0), (1, 0)], [(0, 0), (1, 0)], 2, 77, [Action.perr 5]⟩

/-- A generating state whose protocol reports an error on the next poke. -/
def genStuck : GeneratingState := ⟨[(0, 0), (1, 0)], 2, [Action.perr 5]⟩

/-- The waiting-for-consensus state produced when key generation over the
genStuck roster returns the pair (6, 9). -/
def wfcW : WaitingForConsensusState := ⟨0, [(0, 0), (1, 0)], 2, 6, 9⟩

/-- The web error enum from web/error.rs lines 10-24; payloads that only
feed the response body are opaque. -/
inductive WebError where
  | jsonExtractorRejection (status : Nat) (body : Nat)
  | protocol (e : Nat)
  | cryptography (e : CryptographicError)
  | message (e : Nat)
  | rpc (e : Nat)
  | notRunning
  deriving DecidableEq, Repr

/-- The HTTP status chosen by the IntoResponse impl (web/error.rs lines
27-42); the accompanying body is the error display text, carried by the
constructor payloads and irrelevant to the claims. -/
def into_response_status : WebError → Nat
  | .jsonExtractorRejection status _ => status
  | .protocol _ => 500
  | .cryptography _ => 500
  | .message _ => 500
  | .rpc _ => 400
  | .notRunning => 400

section AssocLemmas

variable {A : Type}

theorem containsKey_eq_isSome_lookupA (l : List (Nat × A)) (k : Nat) :
    containsKey l k = (lookupA l k).isSome := by
  induction l with
  | nil => rfl
  | cons kv rest ih =>
      simp only [containsKey, List.any_cons, lookupA] at ih ⊢
      by_cases h : kv.1 = k
      · simp [h]
      · simp [h, ih]

theorem lookupA_isSome_of_containsKey {l : List (Nat × A)} {k : Nat}
    (h : containsKey l k = true) : ∃ v, lookupA l k = some v := by
  rw [containsKey_eq_isSome_lookupA] at h
  exact Option.isSome_iff_exists.mp h

theorem containsKey_eq_mem_keys (l : List (Nat × A)) (k : Nat) :
    containsKey l k = true ↔ k ∈ l.map Prod.fst := by
  induction l with
  | nil => simp [containsKey]
  | cons kv rest ih =>
      simp only [containsKey, List.any_cons, List.map_cons, List.mem_cons] at ih ⊢
      by_cases h : kv.1 = k
      · simp [h]
      · simp [h, ih, Ne.symm h]

theorem removeA_fst (l : List (Nat × A)) (k : Nat) :
    (removeA l k).1 = lookupA l k := by
  induction l with
  | nil => rfl
  | cons kv rest ih => by_cases h : kv.1 = k <;> simp [removeA, lookupA, h, ih]

theorem removeA_snd_map_fst (l : List (Nat × A)) (k : Nat) :
    (removeA l k).2.map Prod.fst = (l.map Prod.fst).erase k := by
  induction l with
  | nil => rfl
  | cons kv rest ih =>
      by_cases h : kv.1 = k <;>
        simp [removeA, List.erase_cons, h, ih]

theorem lookupA_removeA_ne (l : List (Nat × A)) (k0 k1 : Nat) (h : k1 ≠ k0) :
    lookupA (removeA l k0).2 k1 = lookupA l k1 := by
  induction l with
  | nil => rfl
  | cons kv rest ih =>
      by_cases h0 : kv.1 = k0
      · have hk1 : ¬ kv.1 = k1 := by
          intro hk
          exact h (by rw [← hk]; exact h0)
        simp [removeA, lookupA, h0, hk1, Ne.symm h]
      · by_cases h1 : kv.1 = k1 <;> simp [removeA, lookupA, h0, h1, ih, h]

theorem containsKey_insertA_self (l : List (Nat × A)) (k : Nat) (v : A) :
    containsKey (insertA l k v) k = true := by
  induction l with
  | nil => simp [insertA, containsKey]
  | cons kv rest ih =>
      by_cases h : kv.1 = k
      · simp [insertA, containsKey, List.any_cons, h]
      · simp only [insertA, if_neg h, containsKey, List.any_cons, Bool.or_eq_true]
        right
        simpa [containsKey] using ih

theorem containsKey_insertA_ne (l : List (Nat × A)) (k : Nat) (v : A) (a : Nat)
    (h : a ≠ k) : containsKey (insertA l k v) a = containsKey l a := by
  induction l with
  | nil => simp [insertA, containsKey, Ne.symm h]
  | cons kv rest ih =>
      by_cases hk : kv.1 = k
      · simp [insertA, containsKey, List.any_cons, hk, Ne.symm h]
      · simp only [insertA, if_neg hk, containsKey, List.any_cons]
        simp only [containsKey] at ih
        rw [ih]

theorem containsKey_insertA_of_containsKey (l : List (Nat × A)) (k : Nat) (v : A)
    (a : Nat) (h : containsKey l a = true) :
    containsKey (insertA l k v) a = true := by
  by_cases hak : a = k
  · exact hak ▸ containsKey_insertA_self l k v
  · rw [containsKey_insertA_ne l k v a hak]; exact h

theorem length_insertA_of_not_containsKey (l : List (Nat × A)) (k : Nat) (v : A)
    (h : containsKey l k = false) : (insertA l k v).length = l.length + 1 := by
  induction l with
  | nil => rfl
  | cons kv rest ih =>
      simp only [containsKey, List.any_cons, Bool.or_eq_false_iff] at h
      have hk : ¬ kv.1 = k := by
        intro hk
        simp [hk] at h
      simp only [insertA, if_neg hk, List.length_cons]
      rw [ih]
      simp only [containsKey]
      exact h.2

end AssocLemmas

theorem take_two_of_absent0 (m : TripleManager) (id0 id1 : TripleId)
    (h0 : containsKey m.triples id0 = false) :
    take_two m id0 id1 = some (.error id0, m) := by
  simp [take_two, h0]

theorem take_two_of_absent1 (m : TripleManager) (id0 id1 : TripleId)
    (h0 : containsKey m.triples id0 = true) (h1 : containsKey m.triples id1 = false) :
    take_two m id0 id1 = some (.error id1, m) := by
  simp [take_two, h0, h1]

theorem take_two_of_present (m : TripleManager) (id0 id1 : TripleId)
    (hne : id0 ≠ id1)
    (h0 : containsKey m.triples id0 = true) (h1 : containsKey m.triples id1 = true) :
    ∃ t0 t1, lookupA m.triples id0 = some t0 ∧ lookupA m.triples id1 = some t1 ∧
      take_two m id0 id1 =
        some (.ok (t0, t1), { m with triples := (removeA (removeA m.triples id0).2 id1).2 }) := by
  obtain ⟨t0, ht0⟩ := lookupA_isSome_of_containsKey h0
  obtain ⟨t1, ht1⟩ := lookupA_isSome_of_containsKey h1
  refine ⟨t0, t1, ht0, ht1, ?_⟩
  have hr0 : (removeA m.triples id0).1 = some t0 := by rw [removeA_fst]; exact ht0
  have hr1 : (removeA (removeA m.triples id0).2 id1).1 = some t1 := by
    rw [removeA_fst, lookupA_removeA_ne _ _ _ (Ne.symm hne)]; exact ht1
  simp [take_two, h0, h1, hr0, hr1]

/-- Claim C5 counterexample: in mgr0 the triple with id 1 is present, so
with id0 = id1 = 1 both requested ids are present, yet take_two does not
return Ok: the second remove finds nothing and the unwrap panics (modelled
by none). -/
theorem take_two_equal_ids_cex :
    containsKey mgr0.triples 1 = true ∧ take_two mgr0 1 1 = none := by
  exact ⟨by decide, rfl⟩

/-- Claim C5 (amended, distinct ids): take_two id0 id1 with id0 different
from id1 returns Ok with the triples stored at id0 and id1 and removes
exactly those two entries iff both ids are present; if id0 is absent it
returns Err id0, otherwise if id1 is absent it returns Err id1, and in
either error case the manager is returned unchanged.  When id0 equals id1
and the id is present, the call panics instead (see the counterexample). -/
theorem take_two_spec (m : TripleManager) (id0 id1 : TripleId)
    (hne : id0 ≠ id1) (hnd : (m.triples.map Prod.fst).Nodup) :
    (containsKey m.triples id0 = false → take_two m id0 id1 = some (.error id0, m)) ∧
    (containsKey m.triples id0 = true → containsKey m.triples id1 = false →
      take_two m id0 id1 = some (.error id1, m)) ∧
    (containsKey m.triples id0 = true → containsKey m.triples id1 = true →
      ∃ t0 t1 m', take_two m id0 id1 = some (.ok (t0, t1), m') ∧
        lookupA m.triples id0 = some t0 ∧ lookupA m.triples id1 = some t1 ∧
        m'.triples.map Prod.fst = ((m.triples.map Prod.fst).erase id0).erase id1 ∧
        containsKey m'.triples id0 = false ∧ containsKey m'.triples id1 = false ∧
        (∀ a, a ≠ id0 → a ≠ id1 → lookupA m'.triples a = lookupA m.triples a) ∧
        m'.mine = m.mine ∧ m'.generators = m.generators) := by
  refine ⟨take_two_of_absent0 m id0 id1, take_two_of_absent1 m id0 id1, ?_⟩
  intro h0 h1
  obtain ⟨t0, t1, ht0, ht1, heq⟩ := take_two_of_present m id0 id1 hne h0 h1
  refine ⟨t0, t1, _, heq, ht0, ht1, ?_, ?_, ?_, ?_, rfl, rfl⟩
  · rw [removeA_snd_map_fst, removeA_snd_map_fst]
  · have hne0 : ¬ containsKey (removeA (removeA m.triples id0).2 id1).2 id0 = true := by
      rw [containsKey_eq_mem_keys, removeA_snd_map_fst, removeA_snd_map_fst]
      intro hmem
      exact ((hnd.mem_erase_iff).mp (List.mem_of_mem_erase hmem)).1 rfl
    simpa using hne0
  · have hne1 : ¬ containsKey (removeA (removeA m.triples id0).2 id1).2 id1 = true := by
      rw [containsKey_eq_mem_keys, removeA_snd_map_fst, removeA_snd_map_fst]
      intro hmem
      exact (((hnd.erase id0).mem_erase_iff).mp hmem).1 rfl
    simpa using hne1
  · intro a ha0 ha1
    show lookupA (removeA (removeA m.triples id0).2 id1).2 a = lookupA m.triples a
    rw [lookupA_removeA_ne _ _ _ ha1, lookupA_removeA_ne _ _ _ ha0]

/-- Witness for claim C5 at the concrete manager mgr0: id 9 is absent, so
take_two returns Err 9 and leaves the manager unchanged. -/
theorem take_two_spec_witness :
    take_two mgr0 9 1 = some (.error 9, mgr0) :=
  (take_two_spec mgr0 9 1 (by decide) (by decide)).1 (by decide)

/-- Claim C7: for distinct ids take_two never panics, because after the
two contains_key checks both removes return Some and the unwraps are
unreachable; distinctness is necessary, since with id0 = id1 and the id
present the second remove returns None and its unwrap panics. -/
theorem take_two_no_panic :
    (∀ (m : TripleManager) (id0 id1 : TripleId), id0 ≠ id1 →
      (take_two m id0 id1).isSome = true) ∧
    (∃ (m : TripleManager) (id : TripleId), take_two m id id = none) := by
  constructor
  · intro m id0 id1 hne
    by_cases h0 : containsKey m.triples id0 = true
    · by_cases h1 : containsKey m.triples id1 = true
      · obtain ⟨t0, t1, _, _, heq⟩ := take_two_of_present m id0 id1 hne h0 h1
        simp [heq]
      · rw [take_two_of_absent1 m id0 id1 h0 (by simpa using h1)]; rfl
    · rw [take_two_of_absent0 m id0 id1 (by simpa using h0)]; rfl
  · exact ⟨mgr0, 1, rfl⟩

/-- Witness for claim C7: the distinct ids 1 and 2 on mgr0. -/
theorem take_two_no_panic_witness : (take_two mgr0 1 2).isSome = true :=
  take_two_no_panic.1 mgr0 1 2 (by decide)

section PokeLemmas

variable {A : Type}

theorem lookupA_eq_none_of_not_containsKey {l : List (Nat × A)} {k : Nat}
    (h : containsKey l k = false) : lookupA l k = none := by
  cases hl : lookupA l k with
  | none => rfl
  | some v =>
      rw [containsKey_eq_isSome_lookupA, hl] at h
      simp at h

theorem containsKey_append (l1 l2 : List (Nat × A)) (k : Nat) :
    containsKey (l1 ++ l2) k = (containsKey l1 k || containsKey l2 k) := by
  simp [containsKey, List.any_append]

theorem containsKey_removeA_imp {l : List (Nat × A)} {k a : Nat}
    (h : containsKey (removeA l k).2 a = true) : containsKey l a = true := by
  rw [containsKey_eq_mem_keys] at h ⊢
  rw [removeA_snd_map_fst] at h
  exact List.mem_of_mem_erase h

end PokeLemmas

theorem pokeGo_err_persist (hash64 : Bytes → Nat) (ps : List ParticipantId)
    (me : ParticipantId) (ep : Nat) :
    ∀ (gs : List (TripleId × TScript)) (acc : PokeAcc) (e : Nat), acc.err = some e →
      ∃ e', (pokeGo hash64 ps me ep gs acc).err = some e' := by
  intro gs
  induction gs with
  | nil => exact fun acc e h => ⟨e, h⟩
  | cons pg gs ih =>
      intro acc e h
      obtain ⟨id, g⟩ := pg
      rcases hg : runGenerator ps me ep id g with ⟨ms, out⟩
      cases out with
      | waits rest =>
          simp only [pokeGo, hg]
          exact ih _ e h
      | completes share pub =>
          simp only [pokeGo, hg]
          exact ih _ e h
      | fails e2 =>
          simp only [pokeGo, hg]
          exact ih _ e2 rfl

theorem pokeGo_err_of_fails (hash64 : Bytes → Nat) (ps : List ParticipantId)
    (me : ParticipantId) (ep : Nat) :
    ∀ (gs : List (TripleId × TScript)) (acc : PokeAcc) (id : TripleId) (g : TScript)
      (e : Nat), (id, g) ∈ gs → (runGenerator ps me ep id g).2 = .fails e →
      ∃ e', (pokeGo hash64 ps me ep gs acc).err = some e' := by
  intro gs
  induction gs with
  | nil =>
      intro acc id g e hmem _
      simp at hmem
  | cons pg gs ih =>
      intro acc id g e hmem hfail
      rcases List.mem_cons.mp hmem with heq | hmem'
      · subst heq
        obtain ⟨ms, hg⟩ : ∃ ms, runGenerator ps me ep id g = (ms, GenOutcome.fails e) :=
          ⟨(runGenerator ps me ep id g).1, by rw [← hfail]⟩
        simp only [pokeGo, hg]
        exact pokeGo_err_persist hash64 ps me ep gs _ e rfl
      · obtain ⟨id', g'⟩ := pg
        rcases hg : runGenerator ps me ep id' g' with ⟨ms, out⟩
        cases out with
        | waits rest =>
            simp only [pokeGo, hg]
            exact ih _ id g e hmem' hfail
        | completes share pub =>
            simp only [pokeGo, hg]
            exact ih _ id g e hmem' hfail
        | fails e2 =>
            simp only [pokeGo, hg]
            exact pokeGo_err_persist hash64 ps me ep gs _ e2 rfl

theorem pokeGo_triples_mono (hash64 : Bytes → Nat) (ps : List ParticipantId)
    (me : ParticipantId) (ep : Nat) :
    ∀ (gs : List (TripleId × TScript)) (acc : PokeAcc) (a : TripleId),
      containsKey acc.triples a = true →
      containsKey (pokeGo hash64 ps me ep gs acc).triples a = true := by
  intro gs
  induction gs with
  | nil => exact fun acc a h => h
  | cons pg gs ih =>
      intro acc a h
      obtain ⟨id, g⟩ := pg
      rcases hg : runGenerator ps me ep id g with ⟨ms, out⟩
      cases out with
      | waits rest =>
          simp only [pokeGo, hg]
          exact ih _ a h
      | completes share pub =>
          simp only [pokeGo, hg]
          exact ih _ a (containsKey_insertA_of_containsKey _ _ _ _ h)
      | fails e2 =>
          simp only [pokeGo, hg]
          exact ih _ a h

theorem pokeGo_completes_mem (hash64 : Bytes → Nat) (ps : List ParticipantId)
    (me : ParticipantId) (ep : Nat) :
    ∀ (gs : List (TripleId × TScript)) (acc : PokeAcc) (id : TripleId) (g : TScript)
      (share : TripleShare) (pub : TriplePub), (id, g) ∈ gs →
      (runGenerator ps me ep id g).2 = .completes share pub →
      containsKey (pokeGo hash64 ps me ep gs acc).triples id = true := by
  intro gs
  induction gs with
  | nil =>
      intro acc id g share pub hmem _
      simp at hmem
  | cons pg gs ih =>
      intro acc id g share pub hmem hcomp
      rcases List.mem_cons.mp hmem with heq | hmem'
      · subst heq
        obtain ⟨ms, hg⟩ :
            ∃ ms, runGenerator ps me ep id g = (ms, GenOutcome.completes share pub) :=
          ⟨(runGenerator ps me ep id g).1, by rw [← hcomp]⟩
        simp only [pokeGo, hg]
        exact pokeGo_triples_mono hash64 ps me ep gs _ id
          (containsKey_insertA_self _ _ _)
      · obtain ⟨id', g'⟩ := pg
        rcases hg : runGenerator ps me ep id' g' with ⟨ms, out⟩
        cases out with
        | waits rest =>
            simp only [pokeGo, hg]
            exact ih _ id g share pub hmem' hcomp
        | completes share2 pub2 =>
            simp only [pokeGo, hg]
            exact ih _ id g share pub hmem' hcomp
        | fails e2 =>
            simp only [pokeGo, hg]
            exact ih _ id g share pub hmem' hcomp

theorem pokeGo_kept (hash64 : Bytes → Nat) (ps : List ParticipantId)
    (me : ParticipantId) (ep : Nat) :
    ∀ (gs : List (TripleId × TScript)) (acc : PokeAcc),
      (pokeGo hash64 ps me ep gs acc).kept = acc.kept ++ keptOf ps me ep gs := by
  intro gs
  induction gs with
  | nil =>
      intro acc
      show acc.kept = acc.kept ++ keptOf ps me ep []
      simp [keptOf]
  | cons pg gs ih =>
      intro acc
      obtain ⟨id, g⟩ := pg
      rcases hg : runGenerator ps me ep id g with ⟨ms, out⟩
      cases out with
      | waits rest =>
          simp only [pokeGo, hg]
          rw [ih]
          simp [keptOf, List.filterMap_cons, hg, List.append_assoc]
      | completes share pub =>
          simp only [pokeGo, hg]
          rw [ih]
          simp [keptOf, List.filterMap_cons, hg]
      | fails e2 =>
          simp only [pokeGo, hg]
          rw [ih]
          simp [keptOf, List.filterMap_cons, hg]

theorem keptOf_keys_sub (ps : List ParticipantId) (me : ParticipantId) (ep : Nat) :
    ∀ (gs : List (TripleId × TScript)) (a : TripleId),
      containsKey (keptOf ps me ep gs) a = true → a ∈ gs.map Prod.fst := by
  intro gs a h
  rw [containsKey_eq_mem_keys] at h
  obtain ⟨pr, hpr, hfst⟩ := List.mem_map.mp h
  obtain ⟨pg, hpg, hf⟩ := List.mem_filterMap.mp hpr
  cases hout : (runGenerator ps me ep pg.1 pg.2).2 with
  | waits rest =>
      simp only [hout] at hf
      injection hf with hf
      subst hf
      exact List.mem_map.mpr ⟨pg, hpg, hfst⟩
  | completes share pub =>
      simp only [hout] at hf
      cases hf
  | fails e =>
      simp only [hout] at hf
      cases hf

theorem keptOf_not_contains_of_fails (ps : List ParticipantId) (me : ParticipantId)
    (ep : Nat) :
    ∀ (gs : List (TripleId × TScript)) (id : TripleId) (g : TScript) (e : Nat),
      (gs.map Prod.fst).Nodup → (id, g) ∈ gs →
      (runGenerator ps me ep id g).2 = .fails e →
      containsKey (keptOf ps me ep gs) id = false := by
  intro gs
  induction gs with
  | nil =>
      intro id g e _ hmem _
      simp at hmem
  | cons pg gs ih =>
      intro id g e hnd hmem hfail
      have hnd' : (gs.map Prod.fst).Nodup := (List.nodup_cons.mp hnd).2
      have hhead : pg.1 ∉ gs.map Prod.fst := (List.nodup_cons.mp hnd).1
      rcases List.mem_cons.mp hmem with heq | hmem'
      · subst heq
        simp only [keptOf, List.filterMap_cons, hfail]
        cases hcon : containsKey (keptOf ps me ep gs) id with
        | false => simpa [keptOf] using hcon
        | true => exact (hhead (keptOf_keys_sub ps me ep gs id hcon)).elim
      · have hid : pg.1 ≠ id := by
          intro hk
          refine hhead ?_
          rw [hk]
          exact List.mem_map.mpr ⟨(id, g), hmem', rfl⟩
        have htail := ih id g e hnd' hmem' hfail
        simp only [keptOf, List.filterMap_cons]
        cases hout : (runGenerator ps me ep pg.1 pg.2).2 with
        | waits rest =>
            simp only [hout]
            simp only [containsKey, List.any_cons, Bool.or_eq_false_iff]
            refine ⟨by simp [hid], ?_⟩
            simpa [keptOf, containsKey] using htail
        | completes share pub =>
            simp only [hout]
            simpa [keptOf, containsKey] using htail
        | fails e2 =>
            simp only [hout]
            simpa [keptOf, containsKey] using htail

theorem keptOf_mem_of_waits (ps : List ParticipantId) (me : ParticipantId) (ep : Nat)
    (gs : List (TripleId × TScript)) (id : TripleId) (g : TScript) (rest : TScript)
    (hmem : (id, g) ∈ gs) (hw : (runGenerator ps me ep id g).2 = .waits rest) :
    (id, rest) ∈ keptOf ps me ep gs := by
  refine List.mem_filterMap.mpr ⟨(id, g), hmem, ?_⟩
  simp only [hw]

/-- Claim C8: TripleManager::poke is not atomic on error.  If any
generator fails, the whole call returns Err (so every message already
produced in the same call is dropped), yet all state mutations persist:
each completed generator has its triple inserted, each failed generator is
removed from the retained set, and each waiting generator is retained with
its remaining protocol. -/
theorem poke_error_nonatomic (hash64 : Bytes → Nat) (m : TripleManager)
    (hnd : (m.generators.map Prod.fst).Nodup) :
    ((∃ pg ∈ m.generators,
        ∃ e, (runGenerator m.participants m.me m.epoch pg.1 pg.2).2 = .fails e) →
      ∃ e, (poke hash64 m).1 = .error e) ∧
    (∀ id g share pub, (id, g) ∈ m.generators →
      (runGenerator m.participants m.me m.epoch id g).2 = .completes share pub →
      containsKey (poke hash64 m).2.triples id = true) ∧
    (∀ id g e, (id, g) ∈ m.generators →
      (runGenerator m.participants m.me m.epoch id g).2 = .fails e →
      containsKey (poke hash64 m).2.generators id = false) ∧
    (∀ id g rest, (id, g) ∈ m.generators →
      (runGenerator m.participants m.me m.epoch id g).2 = .waits rest →
      (id, rest) ∈ (poke hash64 m).2.generators) := by
  refine ⟨?_, ?_, ?_, ?_⟩
  · rintro ⟨pg, hmem, e, hfail⟩
    obtain ⟨e', he'⟩ := pokeGo_err_of_fails hash64 m.participants m.me m.epoch
      m.generators ⟨[], m.triples, m.mine, [], none⟩ pg.1 pg.2 e hmem hfail
    exact ⟨e', by simp [poke, he']⟩
  · intro id g share pub hmem hcomp
    exact pokeGo_completes_mem hash64 m.participants m.me m.epoch m.generators
      ⟨[], m.triples, m.mine, [], none⟩ id g share pub hmem hcomp
  · intro id g e hmem hfail
    show containsKey (pokeGo hash64 m.participants m.me m.epoch m.generators
      ⟨[], m.triples, m.mine, [], none⟩).kept id = false
    rw [pokeGo_kept]
    rw [List.nil_append]
    exact keptOf_not_contains_of_fails m.participants m.me m.epoch m.generators
      id g e hnd hmem hfail
  · intro id g rest hmem hw
    show (id, rest) ∈ (pokeGo hash64 m.participants m.me m.epoch m.generators
      ⟨[], m.triples, m.mine, [], none⟩).kept
    rw [pokeGo_kept, List.nil_append]
    exact keptOf_mem_of_waits m.participants m.me m.epoch m.generators id g rest hmem hw

/-- Witness for claim C8: the single failing generator of mgrFail makes
poke return an error. -/
theorem poke_error_nonatomic_witness : ∃ e, (poke hashZero mgrFail).1 = .error e :=
  (poke_error_nonatomic hashZero mgrFail (by decide)).1
    ⟨(9, [Action.perr 3]), by decide, 3, rfl⟩

theorem keys_nodup_val_unique {A : Type} :
    ∀ (l : List (Nat × A)), (l.map Prod.fst).Nodup →
      ∀ (a : Nat) (g g' : A), (a, g) ∈ l → (a, g') ∈ l → g = g' := by
  intro l
  induction l with
  | nil =>
      intro _ a g g' h1 _
      simp at h1
  | cons kv rest ih =>
      intro hnd a g g' h1 h2
      have hhead : kv.1 ∉ rest.map Prod.fst := (List.nodup_cons.mp hnd).1
      rcases List.mem_cons.mp h1 with e1 | m1 <;> rcases List.mem_cons.mp h2 with e2 | m2
      · rw [← e1] at e2
        injection e2 with _ hg
        exact hg.symm
      · exfalso
        refine hhead ?_
        rw [← e1]
        exact List.mem_map.mpr ⟨(a, g'), m2, rfl⟩
      · exfalso
        refine hhead ?_
        rw [← e2]
        exact List.mem_map.mpr ⟨(a, g), m1, rfl⟩
      · exact ih (List.nodup_cons.mp hnd).2 a g g' m1 m2

theorem pokeGo_mine (hash64 : Bytes → Nat) (ps : List ParticipantId)
    (me : ParticipantId) (ep : Nat) :
    ∀ (gs : List (TripleId × TScript)) (acc : PokeAcc),
      (pokeGo hash64 ps me ep gs acc).mine = acc.mine ++ minedOf hash64 ps me ep gs := by
  intro gs
  induction gs with
  | nil =>
      intro acc
      show acc.mine = acc.mine ++ minedOf hash64 ps me ep []
      simp [minedOf]
  | cons pg gs ih =>
      intro acc
      obtain ⟨id, g⟩ := pg
      rcases hg : runGenerator ps me ep id g with ⟨ms, out⟩
      cases out with
      | waits rest =>
          simp only [pokeGo, hg]
          rw [ih]
          simp [minedOf, List.filterMap_cons, hg]
      | completes share pub =>
          simp only [pokeGo, hg]
          rw [ih]
          by_cases him : tripleIsMine hash64 ps me pub.big_c = true
          · simp [minedOf, List.filterMap_cons, hg, him, List.append_assoc]
          · simp [minedOf, List.filterMap_cons, hg, him]
      | fails e2 =>
          simp only [pokeGo, hg]
          rw [ih]
          simp [minedOf, List.filterMap_cons, hg]

theorem minedOf_mem_iff (hash64 : Bytes → Nat) (ps : List ParticipantId)
    (me : ParticipantId) (ep : Nat) (gs : List (TripleId × TScript))
    (hnd : (gs.map Prod.fst).Nodup) (id : TripleId) (g : TScript)
    (msgs : List (ParticipantId × TripleMessage)) (share : TripleShare)
    (pub : TriplePub) (hmem : (id, g) ∈ gs)
    (hrun : runGenerator ps me ep id g = (msgs, .completes share pub)) :
    id ∈ minedOf hash64 ps me ep gs ↔
      tripleIsMine hash64 ps me pub.big_c = true := by
  constructor
  · intro hmm
    obtain ⟨pg, hpg, hf⟩ := List.mem_filterMap.mp hmm
    rcases hr : runGenerator ps me ep pg.1 pg.2 with ⟨ms', out⟩
    cases out with
    | waits rest =>
        simp only [hr] at hf
        cases hf
    | completes s' pub' =>
        simp only [hr] at hf
        by_cases him : tripleIsMine hash64 ps me pub'.big_c = true
        · rw [if_pos him] at hf
          injection hf with hf1
          have hpg' : (id, pg.2) ∈ gs := by
            rw [← hf1, Prod.mk.eta]
            exact hpg
          have hgg : pg.2 = g := keys_nodup_val_unique gs hnd id pg.2 g hpg' hmem
          rw [hf1, hgg] at hr
          have hpair := hrun.symm.trans hr
          injection hpair with _ hout
          injection hout with _ hpub
          rw [hpub]
          exact him
        · rw [if_neg him] at hf
          cases hf
    | fails e =>
        simp only [hr] at hf
        cases hf
  · intro him
    refine List.mem_filterMap.mpr ⟨(id, g), hmem, ?_⟩
    simp only [hrun]
    rw [if_pos him]

/-- Claim C1: whenever poke completes a triple generation with public part
pub, among arbitrarily many in-flight generators, the owner is
participants indexed at the hash of the canonical bytes of big_c modulo
the participant count; poke extends mine by exactly the completions owned
by me, so the completed id is appended to mine iff that owner equals me;
and the owner is a function of the participants list and big_c alone, so
all managers holding the same list agree on it. -/
theorem poke_owner_assignment (hash64 : Bytes → Nat) (m : TripleManager)
    (id : TripleId) (g : TScript) (share : TripleShare) (pub : TriplePub)
    (msgs : List (ParticipantId × TripleMessage))
    (hne : m.participants ≠ [])
    (hnd : (m.generators.map Prod.fst).Nodup)
    (hmem : (id, g) ∈ m.generators)
    (hrun : runGenerator m.participants m.me m.epoch id g =
      (msgs, .completes share pub)) :
    ∃ owner,
      m.participants.get? (hash64 pub.big_c % m.participants.length) = some owner ∧
      tripleOwner hash64 m.participants pub.big_c = some owner ∧
      ((poke hash64 m).2.mine =
        m.mine ++ minedOf hash64 m.participants m.me m.epoch m.generators) ∧
      (id ∈ minedOf hash64 m.participants m.me m.epoch m.generators ↔
        owner = m.me) ∧
      (∀ m2 : TripleManager, m2.participants = m.participants →
        tripleOwner hash64 m2.participants pub.big_c = some owner) := by
  have hlen : 0 < m.participants.length := List.length_pos.mpr hne
  have hlt : hash64 pub.big_c % m.participants.length < m.participants.length :=
    Nat.mod_lt _ hlen
  have hget : m.participants.get? (hash64 pub.big_c % m.participants.length) =
      some (m.participants.get ⟨hash64 pub.big_c % m.participants.length, hlt⟩) :=
    List.get?_eq_get hlt
  have hown : tripleOwner hash64 m.participants pub.big_c =
      some (m.participants.get ⟨hash64 pub.big_c % m.participants.length, hlt⟩) := hget
  have hmine : tripleIsMine hash64 m.participants m.me pub.big_c =
      (m.participants.get ⟨hash64 pub.big_c % m.participants.length, hlt⟩ == m.me) := by
    unfold tripleIsMine
    rw [hown]
  refine ⟨m.participants.get ⟨hash64 pub.big_c % m.participants.length, hlt⟩,
    hget, hown, ?_, ?_, fun m2 h2 => by rw [h2]; exact hown⟩
  · exact pokeGo_mine hash64 m.participants m.me m.epoch m.generators
      ⟨[], m.triples, m.mine, [], none⟩
  · rw [minedOf_mem_iff hash64 m.participants m.me m.epoch m.generators hnd
      id g msgs share pub hmem hrun, hmine]
    exact beq_iff_eq

/-- Witness for claim C1: mgrComplete completes triple 5 among its
generators, the constant-zero hash selects participant 0 = me as owner,
and 5 is exactly the id poke appends to mine. -/
theorem poke_owner_assignment_witness :
    ∃ owner,
      mgrComplete.participants.get?
        (hashZero tpubW.big_c % mgrComplete.participants.length) = some owner ∧
      tripleOwner hashZero mgrComplete.participants tpubW.big_c = some owner ∧
      ((poke hashZero mgrComplete).2.mine =
        mgrComplete.mine ++
          minedOf hashZero mgrComplete.participants mgrComplete.me
            mgrComplete.epoch mgrComplete.generators) ∧
      (5 ∈ minedOf hashZero mgrComplete.participants mgrComplete.me
          mgrComplete.epoch mgrComplete.generators ↔ owner = mgrComplete.me) ∧
      (∀ m2 : TripleManager, m2.participants = mgrComplete.participants →
        tripleOwner hashZero m2.participants tpubW.big_c = some owner) :=
  poke_owner_assignment hashZero mgrComplete 5 [Action.ret (4, tpubW)] 4 tpubW []
    (by decide) (by decide) (by decide) rfl

/-- Claim C2 counterexample: mgrBroadcast acts as node 0, and the SendMany
action inside TripleManager::poke pushes one message per participant with
no exclusion, so the returned batch contains a message whose recipient is
the acting node 0 itself. -/
theorem sendmany_to_self_cex :
    mgrBroadcast.me = 0 ∧
    ∃ msgs, (poke hashZero mgrBroadcast).1 = .ok msgs ∧
      (0, (⟨7, 0, 0, [9]⟩ : TripleMessage)) ∈ msgs := by
  refine ⟨rfl, [(0, ⟨7, 0, 0, [9]⟩), (1, ⟨7, 0, 0, [9]⟩)], rfl, ?_⟩
  exact List.mem_cons_self _ _

/-- Claim C2 (amended): the Generating and Resharing progress loops do
skip me on SendMany, so every plaintext broadcast they emit targets a
participant other than me; TripleManager::poke however does not filter:
its SendMany batch contains one message per participant, so whenever me is
in the participants list the batch contains a self-addressed message and
the caller is expected to filter it. -/
theorem sendmany_recipients :
    (∀ (me : ParticipantId) (s : GeneratingState) script sent0,
      ∀ msg ∈ (progressGen me s script sent0).sentMsgs,
        msg.encrypted = false → msg ∈ sent0 ∨ msg.dest ≠ me) ∧
    (∀ (me : ParticipantId) (s : ResharingState) script sent0,
      ∀ msg ∈ (progressResh me s script sent0).sentMsgs,
        msg.encrypted = false → msg ∈ sent0 ∨ msg.dest ≠ me) ∧
    (∀ (ps : List ParticipantId) (me : ParticipantId) (epoch : Nat) (id : TripleId)
        (d : Bytes) (rest : TScript), ∀ p ∈ ps,
      (p, (⟨id, epoch, me, d⟩ : TripleMessage)) ∈
        (runGenerator ps me epoch id (.sendMany d :: rest)).1) := by
  refine ⟨?_, ?_, ?_⟩
  · intro me s script
    induction script with
    | nil =>
        intro sent0 msg hmem henc
        exact Or.inl hmem
    | cons a rest ih =>
        intro sent0 msg hmem henc
        cases a with
        | wait => exact Or.inl hmem
        | sendMany d =>
            simp only [progressGen] at hmem
            rcases ih _ msg hmem henc with hin | hne
            · rcases List.mem_append.mp hin with h1 | h2
              · exact Or.inl h1
              · right
                obtain ⟨pi, hpi, hmm⟩ := List.mem_map.mp h2
                rw [← hmm]
                have := List.of_mem_filter hpi
                simpa using this
            · exact Or.inr hne
        | sendPrivate p d =>
            cases hl : lookupA s.participants p with
            | some info =>
                simp only [progressGen, hl] at hmem
                rcases ih _ msg hmem henc with hin | hne
                · rcases List.mem_append.mp hin with h1 | h2
                  · exact Or.inl h1
                  · exfalso
                    have hm : msg = ⟨p, true, none, me, d⟩ := by
                      simpa using h2
                    rw [hm] at henc
                    cases henc
                · exact Or.inr hne
            | none =>
                simp only [progressGen, hl] at hmem
                exact Or.inl hmem
        | ret r => exact Or.inl hmem
        | perr e => exact Or.inl hmem
  · intro me s script
    induction script with
    | nil =>
        intro sent0 msg hmem henc
        exact Or.inl hmem
    | cons a rest ih =>
        intro sent0 msg hmem henc
        cases a with
        | wait => exact Or.inl hmem
        | sendMany d =>
            simp only [progressResh] at hmem
            rcases ih _ msg hmem henc with hin | hne
            · rcases List.mem_append.mp hin with h1 | h2
              · exact Or.inl h1
              · right
                obtain ⟨pi, hpi, hmm⟩ := List.mem_map.mp h2
                rw [← hmm]
                have := List.of_mem_filter hpi
                simpa using this
            · exact Or.inr hne
        | sendPrivate p d =>
            cases hl : lookupA s.new_participants p with
            | some info =>
                simp only [progressResh, hl] at hmem
                rcases ih _ msg hmem henc with hin | hne
                · rcases List.mem_append.mp hin with h1 | h2
                  · exact Or.inl h1
                  · exfalso
                    have hm : msg = ⟨p, true, some s.old_epoch, me, d⟩ := by
                      simpa using h2
                    rw [hm] at henc
                    cases henc
                · exact Or.inr hne
            | none =>
                simp only [progressResh, hl] at hmem
                exact Or.inl hmem
        | ret r => exact Or.inl hmem
        | perr e => exact Or.inl hmem
  · intro ps me epoch id d rest p hp
    show (p, (⟨id, epoch, me, d⟩ : TripleMessage)) ∈
      (ps.map (fun q => (q, (⟨id, epoch, me, d⟩ : TripleMessage))) ++
        (runGenerator ps me epoch id rest).1)
    exact List.mem_append.mpr (Or.inl (List.mem_map.mpr ⟨p, hp, rfl⟩))

/-- Witness for claim C2: a broadcast in Generating reaches participant 1
but not the acting node 0. -/
theorem sendmany_recipients_witness :
    (⟨1, false, none, 0, [4]⟩ : SentMsg) ∈ ([] : List SentMsg) ∨
      (⟨1, false, none, 0, [4]⟩ : SentMsg).dest ≠ 0 :=
  sendmany_recipients.1 0 genStuck [Action.sendMany [4]] []
    ⟨1, false, none, 0, [4]⟩ (by decide) rfl

theorem take_two_some_state (m : TripleManager) (x y : TripleId)
    (r : Except TripleId (Triple × Triple)) (m' : TripleManager)
    (h : take_two m x y = some (r, m')) :
    m'.generators = m.generators ∧ m'.mine = m.mine ∧
    ((m'.triples = m.triples ∧ ∃ i, r = .error i) ∨
     (m'.triples = (removeA (removeA m.triples x).2 y).2 ∧
      containsKey m.triples x = true ∧ containsKey m.triples y = true ∧
      ∃ pair, r = .ok pair)) := by
  by_cases hx : containsKey m.triples x = true
  · by_cases hy : containsKey m.triples y = true
    · rw [take_two, if_neg (fun hc => hc hx), if_neg (fun hc => hc hy)] at h
      rcases h0 : (removeA m.triples x).1 with _ | t0
      · simp only [h0] at h
        cases h
      · rcases h1 : (removeA (removeA m.triples x).2 y).1 with _ | t1
        · simp only [h0, h1] at h
          cases h
        · simp only [h0, h1, Option.some.injEq, Prod.mk.injEq] at h
          exact ⟨by rw [← h.2], by rw [← h.2], Or.inr ⟨by rw [← h.2], hx, hy,
            ⟨(t0, t1), h.1.symm⟩⟩⟩
    · rw [take_two_of_absent1 m x y hx (by simpa using hy)] at h
      simp only [Option.some.injEq, Prod.mk.injEq] at h
      exact ⟨by rw [← h.2], by rw [← h.2], Or.inl ⟨by rw [← h.2], ⟨y, h.1.symm⟩⟩⟩
  · rw [take_two_of_absent0 m x y (by simpa using hx)] at h
    simp only [Option.some.injEq, Prod.mk.injEq] at h
    exact ⟨by rw [← h.2], by rw [← h.2], Or.inl ⟨by rw [← h.2], ⟨x, h.1.symm⟩⟩⟩

theorem take_two_preserves_notTracked (m : TripleManager) (a x y : TripleId)
    (r : Except TripleId (Triple × Triple)) (m' : TripleManager)
    (hT : notTracked m a) (h : take_two m x y = some (r, m')) :
    notTracked m' a := by
  obtain ⟨hgen, _, hcase⟩ := take_two_some_state m x y r m' h
  refine ⟨?_, by rw [hgen]; exact hT.2⟩
  rcases hcase with ⟨he, _⟩ | ⟨htr, _, _, _⟩
  · rw [he]; exact hT.1
  · rw [htr]
    cases hc : containsKey (removeA (removeA m.triples x).2 y).2 a with
    | false => rfl
    | true =>
        have := containsKey_removeA_imp (containsKey_removeA_imp hc)
        rw [hT.1] at this
        cases this

theorem pokeGo_notTracked (hash64 : Bytes → Nat) (ps : List ParticipantId)
    (me : ParticipantId) (ep : Nat) :
    ∀ (gs : List (TripleId × TScript)) (acc : PokeAcc) (a : TripleId),
      containsKey acc.kept a = false → containsKey acc.triples a = false →
      containsKey gs a = false →
      containsKey (pokeGo hash64 ps me ep gs acc).kept a = false ∧
      containsKey (pokeGo hash64 ps me ep gs acc).triples a = false := by
  intro gs
  induction gs with
  | nil => exact fun acc a h1 h2 _ => ⟨h1, h2⟩
  | cons pg gs ih =>
      intro acc a h1 h2 h3
      obtain ⟨id, g⟩ := pg
      have h3' : ((id == a) || containsKey gs a) = false := h3
      rw [Bool.or_eq_false_iff] at h3'
      have hida : id ≠ a := by simpa using h3'.1
      rcases hg : runGenerator ps me ep id g with ⟨ms, out⟩
      cases out with
      | waits rest =>
          simp only [pokeGo, hg]
          refine ih _ a ?_ h2 h3'.2
          rw [containsKey_append, h1]
          show (false || ((id == a) || containsKey [] a)) = false
          simp [containsKey, h3'.1]
      | completes share pub =>
          simp only [pokeGo, hg]
          refine ih _ a h1 ?_ h3'.2
          show containsKey (insertA acc.triples id ⟨id, share, pub⟩) a = false
          rw [containsKey_insertA_ne _ _ _ _ (Ne.symm hida)]
          exact h2
      | fails e =>
          simp only [pokeGo, hg]
          exact ih _ a h1 h2 h3'.2

/-- Claim C4 counterexample: take_two mgr0 1 2 succeeds, consuming triples
1 and 2; then get_or_generate for the already spent id 1 (as a late
message about id 1 would cause) starts a fresh generator under id 1, poke
completes it and re-inserts a triple with id 1, and a subsequent take_two
returns a triple with id 1 again. -/
theorem take_two_reuse_cex :
    (∃ pair m', take_two mgr0 1 2 = some (.ok pair, m')) ∧
    (∃ g, get_or_generate npRet c4m1 1 = .ok (some g, c4m2)) ∧
    (∃ t m4, take_two c4m3 1 3 = some (.ok ((⟨1, 0, tpubW⟩ : Triple), t), m4)) := by
  refine ⟨⟨(sampleTriple 1, sampleTriple 2), c4m1, ?_⟩,
    ⟨[Action.ret (0, tpubW)], ?_⟩,
    ⟨sampleTriple 3, { c4m3 with triples := [] }, ?_⟩⟩ <;> rfl

/-- Claim C4 (amended): once take_two a b succeeds, both ids leave
triples, and as long as an id is tracked by neither triples nor
generators, every take_two, take_two_mine and poke keeps it that way and
no take_two can return it; the guarantee is conditional on no later
generator being created under that very id, because generate with a
colliding random id or get_or_generate for the spent id (both preserved
here only under the id-distinctness hypothesis) would re-track it, and its
completion re-inserts the triple, as the counterexample shows. -/
theorem take_two_no_reuse_inv (hash64 : Bytes → Nat)
    (newProtocol : List ParticipantId → ParticipantId → Nat → Except Nat TScript) :
    (∀ m a b pair m', (m.triples.map Prod.fst).Nodup →
      take_two m a b = some (.ok pair, m') →
      containsKey m'.triples a = false ∧ containsKey m'.triples b = false ∧
      m'.generators = m.generators) ∧
    (∀ m a x y r m', notTracked m a → take_two m x y = some (r, m') →
      notTracked m' a ∧ (∀ pair, r = .ok pair → x ≠ a ∧ y ≠ a)) ∧
    (∀ m a r m', notTracked m a → take_two_mine m = some (r, m') →
      notTracked m' a) ∧
    (∀ m a, notTracked m a → notTracked (poke hash64 m).2 a) ∧
    (∀ m a id m', a ≠ id → notTracked m a → generate newProtocol m id = .ok m' →
      notTracked m' a) ∧
    (∀ m a id r m', a ≠ id → notTracked m a →
      get_or_generate newProtocol m id = .ok (r, m') → notTracked m' a) := by
  refine ⟨?_, ?_, ?_, ?_, ?_, ?_⟩
  · intro m a b pair m' hnd h
    obtain ⟨hgen, _, hcase⟩ := take_two_some_state m a b (.ok pair) m' h
    rcases hcase with ⟨_, i, hei⟩ | ⟨htr, _, _, _⟩
    · cases hei
    · refine ⟨?_, ?_, hgen⟩
      · rw [htr]
        have hne0 : ¬ containsKey (removeA (removeA m.triples a).2 b).2 a = true := by
          rw [containsKey_eq_mem_keys, removeA_snd_map_fst, removeA_snd_map_fst]
          intro hmem
          exact ((hnd.mem_erase_iff).mp (List.mem_of_mem_erase hmem)).1 rfl
        simpa using hne0
      · rw [htr]
        have hne1 : ¬ containsKey (removeA (removeA m.triples a).2 b).2 b = true := by
          rw [containsKey_eq_mem_keys, removeA_snd_map_fst, removeA_snd_map_fst]
          intro hmem
          exact (((hnd.erase a).mem_erase_iff).mp hmem).1 rfl
        simpa using hne1
  · intro m a x y r m' hT h
    refine ⟨take_two_preserves_notTracked m a x y r m' hT h, ?_⟩
    intro pair hr
    obtain ⟨_, _, hcase⟩ := take_two_some_state m x y r m' h
    rcases hcase with ⟨_, i, hei⟩ | ⟨_, hx, hy, _⟩
    · rw [hr] at hei; cases hei
    · constructor
      · intro hxa
        rw [hxa, hT.1] at hx
        cases hx
      · intro hya
        rw [hya, hT.1] at hy
        cases hy
  · intro m a r m' hT htm
    rw [take_two_mine] at htm
    by_cases hlen : m.mine.length < 2
    · rw [if_pos hlen] at htm
      simp only [Option.some.injEq, Prod.mk.injEq] at htm
      rw [← htm.2]
      exact hT
    · rw [if_neg hlen] at htm
      cases hm : m.mine with
      | nil =>
          rw [hm] at htm
          simp only [Option.some.injEq, Prod.mk.injEq] at htm
          rw [← htm.2]
          exact hT
      | cons id0 tl =>
          cases tl with
          | nil =>
              rw [hm] at htm
              simp only [Option.some.injEq, Prod.mk.injEq] at htm
              rw [← htm.2]
              exact hT
          | cons id1 rest =>
              rw [hm] at htm
              have hTi : notTracked { m with mine := rest } a := hT
              cases hti : take_two { m with mine := rest } id0 id1 with
              | none =>
                  simp only [hti] at htm
                  cases htm
              | some pr =>
                  obtain ⟨ri, mi⟩ := pr
                  have hpres := take_two_preserves_notTracked _ a id0 id1 ri mi hTi hti
                  cases ri with
                  | ok pair =>
                      simp only [hti, Option.some.injEq, Prod.mk.injEq] at htm
                      rw [← htm.2]
                      exact hpres
                  | error i =>
                      simp only [hti, Option.some.injEq, Prod.mk.injEq] at htm
                      rw [← htm.2]
                      exact hpres
  · intro m a hT
    have h := pokeGo_notTracked hash64 m.participants m.me m.epoch m.generators
      ⟨[], m.triples, m.mine, [], none⟩ a rfl hT.1 hT.2
    exact ⟨h.2, h.1⟩
  · intro m a id m' hne hT hg
    simp only [generate] at hg
    cases hnp : newProtocol m.participants m.me m.threshold with
    | error e => rw [hnp] at hg; cases hg
    | ok proto =>
        rw [hnp] at hg
        simp only [Except.ok.injEq] at hg
        rw [← hg]
        refine ⟨hT.1, ?_⟩
        show containsKey (insertA m.generators id proto) a = false
        rw [containsKey_insertA_ne _ _ _ _ hne]
        exact hT.2
  · intro m a id r m' hne hT hg
    simp only [get_or_generate] at hg
    by_cases ht : containsKey m.triples id = true
    · rw [if_pos ht] at hg
      simp only [Except.ok.injEq, Prod.mk.injEq] at hg
      rw [← hg.2]
      exact hT
    · rw [if_neg ht] at hg
      cases hl : lookupA m.generators id with
      | some g0 =>
          rw [hl] at hg
          simp only [Except.ok.injEq, Prod.mk.injEq] at hg
          rw [← hg.2]
          exact hT
      | none =>
          rw [hl] at hg
          cases hnp : newProtocol m.participants m.me m.threshold with
          | error e => rw [hnp] at hg; cases hg
          | ok proto =>
              rw [hnp] at hg
              simp only [Except.ok.injEq, Prod.mk.injEq] at hg
              rw [← hg.2]
              refine ⟨hT.1, ?_⟩
              show containsKey (insertA m.generators id proto) a = false
              rw [containsKey_insertA_ne _ _ _ _ hne]
              exact hT.2

/-- Witness for claim C4: id 9 is tracked nowhere in mgr0 and poke keeps
it that way. -/
theorem take_two_no_reuse_inv_witness : notTracked (poke hashZero mgr0).2 9 :=
  (take_two_no_reuse_inv hashZero npWait).2.2.2.1 mgr0 9 (by decide)

/-- Claim C3: whenever progress returns WaitingForConsensus, from
Generating the new state has epoch 0 and carries the returned
private_share and public_key alongside the unchanged participants and
threshold; from Resharing it has epoch old_epoch + 1, the new
participants, the returned private share, and the unchanged public
key. -/
theorem progress_wfc_fields :
    (∀ (me : ParticipantId) (s : GeneratingState) script sent0 w out,
      progressGen me s script sent0 = .ok (.waitingForConsensus w) out →
      w.epoch = 0 ∧ w.participants = s.participants ∧ w.threshold = s.threshold ∧
      ∃ r : Nat × Nat, Action.ret r ∈ script ∧
        w.private_share = r.1 ∧ w.public_key = r.2) ∧
    (∀ (me : ParticipantId) (s : ResharingState) script sent0 w out,
      progressResh me s script sent0 = .ok (.waitingForConsensus w) out →
      w.epoch = s.old_epoch + 1 ∧ w.participants = s.new_participants ∧
      w.threshold = s.threshold ∧ w.public_key = s.public_key ∧
      ∃ p : Nat, Action.ret p ∈ script ∧ w.private_share = p) := by
  constructor
  · intro me s script
    induction script with
    | nil =>
        intro sent0 w out h
        simp only [progressGen] at h
        simp at h
    | cons a rest ih =>
        intro sent0 w out h
        cases a with
        | wait =>
            simp only [progressGen] at h
            simp at h
        | sendMany d =>
            simp only [progressGen] at h
            obtain ⟨h1, h2, h3, r, hr, h4, h5⟩ := ih _ w out h
            exact ⟨h1, h2, h3, r, List.mem_cons_of_mem _ hr, h4, h5⟩
        | sendPrivate p d =>
            cases hl : lookupA s.participants p with
            | some info =>
                simp only [progressGen, hl] at h
                obtain ⟨h1, h2, h3, r, hr, h4, h5⟩ := ih _ w out h
                exact ⟨h1, h2, h3, r, List.mem_cons_of_mem _ hr, h4, h5⟩
            | none =>
                simp only [progressGen, hl] at h
                cases h
        | ret r0 =>
            simp only [progressGen] at h
            injection h with h1 h2
            injection h1 with h1
            subst h1
            exact ⟨rfl, rfl, rfl, r0, List.mem_cons_self _ _, rfl, rfl⟩
        | perr e =>
            simp only [progressGen] at h
            cases h
  · intro me s script
    induction script with
    | nil =>
        intro sent0 w out h
        simp only [progressResh] at h
        simp at h
    | cons a rest ih =>
        intro sent0 w out h
        cases a with
        | wait =>
            simp only [progressResh] at h
            simp at h
        | sendMany d =>
            simp only [progressResh] at h
            obtain ⟨h1, h2, h3, h4, p0, hp, h5⟩ := ih _ w out h
            exact ⟨h1, h2, h3, h4, p0, List.mem_cons_of_mem _ hp, h5⟩
        | sendPrivate p d =>
            cases hl : lookupA s.new_participants p with
            | some info =>
                simp only [progressResh, hl] at h
                obtain ⟨h1, h2, h3, h4, p0, hp, h5⟩ := ih _ w out h
                exact ⟨h1, h2, h3, h4, p0, List.mem_cons_of_mem _ hp, h5⟩
            | none =>
                simp only [progressResh, hl] at h
                cases h
        | ret p0 =>
            simp only [progressResh] at h
            injection h with h1 h2
            injection h1 with h1
            subst h1
            exact ⟨rfl, rfl, rfl, rfl, p0, List.mem_cons_self _ _, rfl⟩
        | perr e =>
            simp only [progressResh] at h
            cases h

/-- Witness for claim C3: a keygen protocol returning the pair (6, 9)
lands in WaitingForConsensus wfcW with epoch 0 and those values. -/
theorem progress_wfc_fields_witness :
    wfcW.epoch = 0 ∧ wfcW.participants = genStuck.participants ∧
    wfcW.threshold = genStuck.threshold ∧
    ∃ r : Nat × Nat, Action.ret r ∈ [Action.ret ((6 : Nat), (9 : Nat))] ∧
      wfcW.private_share = r.1 ∧ wfcW.public_key = r.2 :=
  progress_wfc_fields.1 0 genStuck [Action.ret (6, 9)] [] wfcW [] rfl

/-- Claim C6, settling on the side of the spec: the Resharing progress
loop unwraps the protocol poke result, so a protocol error panics the
node, while the Generating loop surfaces the same error as a
CryptographicError; evaluated at the stuck states whose next poke
errors. -/
theorem resharing_error_unwrap_panics :
    progressResh 0 reshStuck reshStuck.protocol [] = .panicked [] ∧
    progressGen 0 genStuck genStuck.protocol [] =
      .err (.caitSithProtocolError 5) [] :=
  ⟨rfl, rfl⟩

theorem generatePileGo_ok
    (newProtocol : List ParticipantId → ParticipantId → Nat → Except Nat TScript)
    (proto : TScript) (ids : Nat → TripleId)
    (hinj : ∀ a b, a ≠ b → ids a ≠ ids b) :
    ∀ (k i : Nat) (m : TripleManager),
      newProtocol m.participants m.me m.threshold = .ok proto →
      (∀ j, i ≤ j → containsKey m.generators (ids j) = false) →
      ∃ m', generatePileGo newProtocol k ids i m = .ok m' ∧
        m'.generators.length = m.generators.length + k ∧
        m'.triples = m.triples ∧ m'.mine = m.mine := by
  intro k
  induction k with
  | zero =>
      intro i m hnp hfresh
      exact ⟨m, rfl, by simp, rfl, rfl⟩
  | succ k ih =>
      intro i m hnp hfresh
      have hstep : generate newProtocol m (ids i) =
          .ok { m with generators := insertA m.generators (ids i) proto } := by
        simp only [generate, hnp]
      have hfresh1 : ∀ j, i + 1 ≤ j →
          containsKey (insertA m.generators (ids i) proto) (ids j) = false := by
        intro j hj
        rw [containsKey_insertA_ne _ _ _ _ (hinj j i (by omega))]
        exact hfresh j (by omega)
      obtain ⟨m', hrun, hlen, htr, hmine⟩ :=
        ih (i + 1) { m with generators := insertA m.generators (ids i) proto }
          hnp hfresh1
      refine ⟨m', ?_, ?_, htr, hmine⟩
      · simp only [generatePileGo, hstep]
        exact hrun
      · rw [hlen]
        show (insertA m.generators (ids i) proto).length + k =
          m.generators.length + (k + 1)
        rw [length_insertA_of_not_containsKey _ _ _ (hfresh i (le_refl i))]
        omega

/-- Claim C9: generate_pile_by_bandwidth starts exactly pile new
generation protocols, where pile is the triple_stockpile override when
set and min(DEFAULT_MAX_PILE, DEFAULT_MAX_MESSAGES / nodes^2) otherwise,
with DEFAULT_MAX_PILE = 100 and DEFAULT_MAX_MESSAGES = 22500; nodes is
assumed positive, since the Rust division panics at nodes = 0. -/
theorem generate_pile_count
    (newProtocol : List ParticipantId → ParticipantId → Nat → Except Nat TScript)
    (m : TripleManager) (nodes : Nat) (ids : Nat → TripleId) (proto : TScript)
    (_hn : 0 < nodes)
    (hnp : newProtocol m.participants m.me m.threshold = .ok proto)
    (hfresh : ∀ i, containsKey m.generators (ids i) = false)
    (hinj : ∀ a b, a ≠ b → ids a ≠ ids b) :
    ∃ m', generate_pile_by_bandwidth newProtocol m nodes ids = .ok m' ∧
      m'.generators.length = m.generators.length + pileOf m nodes ∧
      m'.triples = m.triples ∧ m'.mine = m.mine ∧
      pileOf m nodes = (match m.triple_stockpile with
        | some t => t
        | none => min DEFAULT_MAX_PILE (DEFAULT_MAX_MESSAGES / (nodes * nodes))) ∧
      DEFAULT_MAX_PILE = 100 ∧ DEFAULT_MAX_MESSAGES = 22500 := by
  obtain ⟨m', hrun, hlen, htr, hmine⟩ := generatePileGo_ok newProtocol proto ids hinj
    (pileOf m nodes) 0 m hnp (fun j _ => hfresh j)
  refine ⟨m', hrun, hlen, htr, hmine, ?_, rfl, rfl⟩
  unfold pileOf calc_optimal_pile
  cases m.triple_stockpile <;> simp [Nat.min_comm]

/-- Witness for claim C9: at nodes = 5 with no override mgr0 grows by
min(100, 22500 / 25) = 100 generators. -/
theorem generate_pile_count_witness :
    ∃ m', generate_pile_by_bandwidth npWait mgr0 5 (fun i => i) = .ok m' ∧
      m'.generators.length = mgr0.generators.length + pileOf mgr0 5 ∧
      m'.triples = mgr0.triples ∧ m'.mine = mgr0.mine ∧
      pileOf mgr0 5 = (match mgr0.triple_stockpile with
        | some t => t
        | none => min DEFAULT_MAX_PILE (DEFAULT_MAX_MESSAGES / (5 * 5))) ∧
      DEFAULT_MAX_PILE = 100 ∧ DEFAULT_MAX_MESSAGES = 22500 :=
  generate_pile_count npWait mgr0 5 (fun i => i) [Action.wait] (by decide) rfl
    (fun _ => rfl) (fun _ _ h => h)

/-- Claim C10: the web error mapping keeps the JSON rejection status for
malformed bodies, returns 500 for protocol, cryptography and
message-channel errors, and 400 exactly for RPC errors and the node is
not running error. -/
theorem web_error_status :
    (∀ s b, into_response_status (.jsonExtractorRejection s b) = s) ∧
    (∀ e, into_response_status (.protocol e) = 500) ∧
    (∀ e, into_response_status (.cryptography e) = 500) ∧
    (∀ e, into_response_status (.message e) = 500) ∧
    (∀ e, into_response_status (.rpc e) = 400) ∧
    into_response_status .notRunning = 400 ∧
    (∀ w, into_response_status w = 400 →
      w = .notRunning ∨ (∃ e, w = .rpc e) ∨
      ∃ s b, w = .jsonExtractorRejection s b ∧ s = 400) := by
  refine ⟨fun s b => rfl, fun e => rfl, fun e => rfl, fun e => rfl, fun e => rfl,
    rfl, ?_⟩
  intro w hw
  cases w with
  | jsonExtractorRejection s b => exact Or.inr (Or.inr ⟨s, b, rfl, hw⟩)
  | protocol e => simp [into_response_status] at hw
  | cryptography e => simp [into_response_status] at hw
  | message e => simp [into_response_status] at hw
  | rpc e => exact Or.inr (Or.inl ⟨e, rfl⟩)
  | notRunning => exact Or.inl rfl

/-- Witness for claim C10: the not running error maps to status 400 and
is one of the 400 cases. -/
theorem web_error_status_witness :
    WebError.notRunning = WebError.notRunning ∨
      (∃ e, WebError.notRunning = WebError.rpc e) ∨
      ∃ s b, WebError.notRunning = WebError.jsonExtractorRejection s b ∧ s = 400 :=
  web_error_status.2.2.2.2.2.2 .notRunning rfl

end MpcRecovery
